import Mathlib

/-!
# cpp-memoization: the `memoize` template and the three Fibonacci variants

A shallow embedding of `src/main.cpp`.

* `unsigned` is a natural number below `U32 = 2^32`; `+` and `-` on it are
  `uadd` and `usub`, which wrap modulo `U32`.
* `std::map<K, V>` is a finite partial map, modelled as `K → Option V`
  (`Memo`): `memo.count(n) > 0` is `memo n ≠ none`, `memo[n]` on a present key
  is the stored value, and `memo[n] = v` is `Memo.set`.
* Functions with side effects pass the state explicitly.  The `static` map
  inside the closure returned by `memoize` is the field `World.memo`; it is
  attached to the closure type, so there is one per instantiation
  `memoize<InType, OutType>`, shared by every closure that instantiation
  returns.  Everything else a wrapped callable can touch is `World.ext`.
* A C++ exception is the `Except.error` component of a result; the state
  reached when the exception leaves the function is returned next to it.
* Counters and logs (`calls`, `entries`, the log of `invoke`) are ghost state:
  they record how often a function body is entered and are never read by the
  program.
* C++ leaves the evaluation order of the operands of `a + b` open; the model
  evaluates the left operand first.  The order of a `<<` chain decides what
  `main` prints, so it is a parameter of the driver (`EvalOrder`).
* The output is the list of the values inserted into `std::cout` (`Tok`); the
  elapsed times reported by the clock are inputs.
-/

namespace Memoization

/-! ## Machine arithmetic -/

/-- Number of values of the 32-bit `unsigned` type. -/
abbrev U32 : Nat := 4294967296

/-- Addition of two `unsigned` values: wraps modulo `2^32`. -/
def uadd (a b : Nat) : Nat := (a + b) % U32

/-- Subtraction of two `unsigned` values: wraps modulo `2^32`, that is, when
`b` exceeds `a` the result is `a - b + 2^32`. -/
def usub (a b : Nat) : Nat := if b ≤ a then a - b else U32 - (b - a)

/-! ## `std::map` -/

/-- Contents of a `std::map<K, V>`: the value stored under each present key. -/
abbrev Memo (K V : Type) := K → Option V

/-- The map of a default-constructed `std::map`. -/
def Memo.empty {K V : Type} : Memo K V := fun _ => none

/-- The assignment `memo[k] = v`. -/
def Memo.set {K V : Type} [DecidableEq K] (memo : Memo K V) (k : K) (v : V) : Memo K V :=
  fun x => if x = k then some v else memo x

/-! ## `memoize` -/

/-- Program state seen by a closure returned by `memoize<K, V>`: the
function-local `static std::map<K, V> memo` of the closure type, and the rest
of the state (`ext`) that the wrapped callable may read and write. -/
structure World (K V σ : Type) where
  memo : Memo K V
  ext : σ

/-- A callable `std::function<V(K)>`: from an argument and the current state
to a returned value or a thrown exception, and the state afterwards. -/
abbrev Callable (K V σ ε : Type) := K → World K V σ → Except ε V × World K V σ

/-- The closure returned by `memoize(foo)`, applied to `n` (main.cpp 15-28). -/
def memoize {K V σ ε : Type} [DecidableEq K] (foo : Callable K V σ ε) : Callable K V σ ε :=
  fun n w =>
    match w.memo n with
    | some ret => (Except.ok ret, w)
    | none =>
      match foo n w with
      | (Except.error e, w') => (Except.error e, w')
      | (Except.ok ret, w') => (Except.ok ret, World.mk (w'.memo.set n ret) w'.ext)

/-- A callable that has no access to any closure of `memoize`: it acts on
`ext` only and leaves the memo table alone. -/
def liftExt {K V σ ε : Type} (foo : K → σ → Except ε V × σ) : Callable K V σ ε :=
  fun k w => ((foo k w.ext).1, World.mk w.memo (foo k w.ext).2)

/-- A deterministic function `f` (which may throw) as a callable, instrumented
with the log of the arguments it has been invoked with. -/
def invoke {K V ε : Type} (f : K → Except ε V) : Callable K V (List K) ε :=
  liftExt (fun k log => (f k, log ++ [k]))

/-- A deterministic function that always returns. -/
def total {K V ε : Type} (f : K → V) : K → Except ε V := fun k => Except.ok (f k)

/-- The calls `g(k₁); g(k₂); ...` made one after the other, results dropped. -/
def runCalls {K V σ ε : Type} (g : Callable K V σ ε) (ks : List K) (w : World K V σ) :
    World K V σ :=
  ks.foldl (fun w k => (g k w).2) w

/-- State of a fresh program: empty memo table, empty invocation log. -/
def freshLog {K V : Type} : World K V (List K) := World.mk Memo.empty []

/-- The memo table invariant: every stored value is the value of `f`. -/
def MemoInv {K V : Type} (f : K → V) (memo : Memo K V) : Prop :=
  ∀ k v, memo k = some v → v = f k

/-- What the table and the invocation log look like after the calls `ks` on a
fresh state: the keys present are the keys called, each logged once. -/
def LogInv {K V : Type} [DecidableEq K] (w : World K V (List K)) (ks : List K) : Prop :=
  (∀ k, w.memo k ≠ none ↔ k ∈ ks) ∧ (∀ k, w.ext.count k = if k ∈ ks then 1 else 0)

/-! ## The Fibonacci variants -/

/-- The naive `fibonocci` (main.cpp 54-62). -/
def fibonocci (n : Nat) : Nat :=
  if n ≤ 1 then n
  else uadd (fibonocci (usub n 1)) (fibonocci (usub n 2))
termination_by n
decreasing_by
  all_goals simp only [usub, U32]
  all_goals split
  all_goals omega

/-- The global `fibonocci_lambda` (main.cpp 67-74).  The name in its body is
the global variable itself, which `main` never assigns to.  `calls` counts the
entries into the body. -/
def fibonocci_lambda (n : Nat) (calls : Nat) : Nat × Nat :=
  if n ≤ 1 then (n, calls + 1)
  else
    let r1 := fibonocci_lambda (usub n 1) (calls + 1)
    let r2 := fibonocci_lambda (usub n 2) r1.2
    (uadd r1.1 r2.1, r2.2)
termination_by n
decreasing_by
  all_goals simp only [usub, U32]
  all_goals split
  all_goals omega

/-- State of `fibonocci_with_memoization`: its `static` cache and the number of
entries into the function. -/
structure HandState where
  memo : Memo Nat Nat
  entries : Nat

/-- The hand-memoized `fibonocci_with_memoization` (main.cpp 81-109). -/
def fibonocci_with_memoization (n : Nat) (s : HandState) : Nat × HandState :=
  if n ≤ 1 then (n, HandState.mk s.memo (s.entries + 1))
  else
    match s.memo n with
    | some v => (v, HandState.mk s.memo (s.entries + 1))
    | none =>
      let r1 := fibonocci_with_memoization (usub n 1) (HandState.mk s.memo (s.entries + 1))
      let r2 := fibonocci_with_memoization (usub n 2) r1.2
      let result := uadd r1.1 r2.1
      (result, HandState.mk (r2.2.memo.set n result) r2.2.entries)
termination_by n
decreasing_by
  all_goals simp only [usub, U32]
  all_goals split
  all_goals omega

/-- The local `memoized = memoize(fibonocci_lambda)` of `main` (main.cpp 116);
`ext` is the entry counter of `fibonocci_lambda`. -/
def memoized : Callable Nat Nat Nat Empty :=
  memoize (liftExt (fun k calls =>
    (Except.ok (fibonocci_lambda k calls).1, (fibonocci_lambda k calls).2)))

/-- State of a fresh program run: empty memo table, no body entered yet. -/
def freshRun : World Nat Nat Nat := World.mk Memo.empty 0

/-- Empty cache of `fibonocci_with_memoization`, no call made yet. -/
def freshHand : HandState := HandState.mk Memo.empty 0

/-- The calls `fibonocci_with_memoization(k₁); ...` one after the other. -/
def runHand (ks : List Nat) (s : HandState) : HandState :=
  ks.foldl (fun s k => (fibonocci_with_memoization k s).2) s

/-- The naive `fibonocci` once more (main.cpp 54-62), instrumented: `calls`
counts the entries into the function. -/
def fibonocci_counted (n : Nat) (calls : Nat) : Nat × Nat :=
  if n ≤ 1 then (n, calls + 1)
  else
    let r1 := fibonocci_counted (usub n 1) (calls + 1)
    let r2 := fibonocci_counted (usub n 2) r1.2
    (uadd r1.1 r2.1, r2.2)
termination_by n
decreasing_by
  all_goals simp only [usub, U32]
  all_goals split
  all_goals omega

/-- The cache of `fibonocci_with_memoization` holds exactly the keys `2 .. m`. -/
def HandKeys (s : HandState) (m : Nat) : Prop :=
  ∀ k, s.memo k ≠ none ↔ (2 ≤ k ∧ k ≤ m)

/-! ## The driver -/

/-- One insertion into `std::cout`. -/
inductive Tok where
  | text (s : String)
  | int (i : Int)
  | uns (v : Nat)
  | dur (ms : Nat)
  | endl
deriving DecidableEq

/-- Order in which `a << f()` evaluates its operands: the language left it
open before C++17 and prescribes left to right since. -/
inductive EvalOrder where
  | leftToRight
  | operandFirst
deriving DecidableEq

/-- Conversion of the `int n` of `main` to `unsigned`. -/
def toUnsigned (n : Int) : Nat := (n % 4294967296).toNat

/-- The value a call of `memoized` returned. -/
def returned : Except Empty Nat → Nat
  | Except.ok v => v
  | Except.error e => nomatch e

/-- The function `measure<>::execution(func)` (main.cpp 36-47): runs `func`, which
writes to the output, and returns the elapsed milliseconds `ms` read from the
system clock. -/
def measure.execution (func : List Tok → List Tok) (ms : Nat) (out : List Tok) :
    Nat × List Tok :=
  (ms, func out)

/-- One statement `std::cout << "Duration: " << measure<>::execution(func) <<
std::endl` of `main`. -/
def timedStatement (order : EvalOrder) (func : List Tok → List Tok) (ms : Nat)
    (out : List Tok) : List Tok :=
  match order with
  | EvalOrder.leftToRight =>
    (measure.execution func ms (out ++ [Tok.text "Duration: "])).2 ++
      [Tok.dur (measure.execution func ms (out ++ [Tok.text "Duration: "])).1, Tok.endl]
  | EvalOrder.operandFirst =>
    (measure.execution func ms out).2 ++
      [Tok.text "Duration: ", Tok.dur (measure.execution func ms out).1, Tok.endl]

/-- The output of `main` (main.cpp 111-133) on the argument `n`, the three
elapsed times being `ms1`, `ms2`, `ms3`. -/
def main (order : EvalOrder) (n : Int) (ms1 ms2 ms3 : Nat) : List Tok :=
  let out1 := timedStatement order (fun out => out ++
    [Tok.text "fibonocci(", Tok.int n, Tok.text ") -> ",
      Tok.uns (fibonocci (toUnsigned n)), Tok.endl]) ms1 []
  let out2 := timedStatement order (fun out => out ++
    [Tok.text "fibonocci_with_memoization(", Tok.int n, Tok.text ") -> ",
      Tok.uns (fibonocci_with_memoization (toUnsigned n) freshHand).1, Tok.endl]) ms2 out1
  timedStatement order (fun out => out ++
    [Tok.text "memoized(", Tok.int n, Tok.text ") -> ",
      Tok.uns (returned (memoized (toUnsigned n) freshRun).1), Tok.endl]) ms3 out2

/-- The six output lines as the specification lists them (spec.md, section 6):
each value line followed by its `Duration:` line. -/
def sixLines (n : Int) (v1 ms1 v2 ms2 v3 ms3 : Nat) : List Tok :=
  [Tok.text "fibonocci(", Tok.int n, Tok.text ") -> ", Tok.uns v1, Tok.endl,
   Tok.text "Duration: ", Tok.dur ms1, Tok.endl,
   Tok.text "fibonocci_with_memoization(", Tok.int n, Tok.text ") -> ", Tok.uns v2, Tok.endl,
   Tok.text "Duration: ", Tok.dur ms2, Tok.endl,
   Tok.text "memoized(", Tok.int n, Tok.text ") -> ", Tok.uns v3, Tok.endl,
   Tok.text "Duration: ", Tok.dur ms3, Tok.endl]

/-! ## Arithmetic helpers -/

theorem usub_one {n : Nat} (h1 : ¬ n ≤ 1) : usub n 1 = n - 1 := by
  simp only [usub, U32] at *
  split <;> omega

theorem usub_two {n : Nat} (h1 : ¬ n ≤ 1) : usub n 2 = n - 2 := by
  simp only [usub, U32] at *
  split <;> omega

theorem fibonocci_unfold (n : Nat) :
    fibonocci n = if n ≤ 1 then n else uadd (fibonocci (usub n 1)) (fibonocci (usub n 2)) := by
  rw [fibonocci]

/-- The naive variant computes the Fibonacci numbers modulo `2^32`. -/
theorem fibonocci_eq_fib : ∀ n, fibonocci n = Nat.fib n % U32 := by
  intro n
  induction n using Nat.strong_induction_on with
  | _ n ih =>
    rw [fibonocci_unfold]
    by_cases h1 : n ≤ 1
    · rw [if_pos h1]
      have h2 : n = 0 ∨ n = 1 := by omega
      rcases h2 with h2 | h2 <;> subst h2 <;> simp
    · rw [if_neg h1, usub_one h1, usub_two h1,
        ih (n - 1) (by omega), ih (n - 2) (by omega)]
      obtain ⟨m, rfl⟩ : ∃ m, n = m + 2 := ⟨n - 2, by omega⟩
      simp only [uadd, Nat.add_sub_cancel, Nat.fib_add_two]
      have e : m + 2 - 1 = m + 1 := by omega
      rw [e, Nat.add_comm (Nat.fib m) (Nat.fib (m + 1))]
      exact (Nat.add_mod _ _ _).symm

/-! ## Helpers on `memoize` -/

theorem memoize_hit {K V σ ε : Type} [DecidableEq K] (foo : Callable K V σ ε) (n : K)
    (w : World K V σ) (v : V) (h : w.memo n = some v) :
    memoize foo n w = (Except.ok v, w) := by
  simp only [memoize, h]

theorem memoize_invoke_ok {K V ε : Type} [DecidableEq K] (f : K → Except ε V) (n : K)
    (w : World K V (List K)) (v : V) (h : w.memo n = none) (hf : f n = Except.ok v) :
    memoize (invoke f) n w = (Except.ok v, World.mk (w.memo.set n v) (w.ext ++ [n])) := by
  simp only [memoize, h, invoke, liftExt, hf]

theorem memoize_invoke_error {K V ε : Type} [DecidableEq K] (f : K → Except ε V) (n : K)
    (w : World K V (List K)) (e : ε) (h : w.memo n = none) (hf : f n = Except.error e) :
    memoize (invoke f) n w = (Except.error e, World.mk w.memo (w.ext ++ [n])) := by
  simp only [memoize, h, invoke, liftExt, hf]

theorem runCalls_snoc {K V σ ε : Type} (g : Callable K V σ ε) (ks : List K) (k : K)
    (w : World K V σ) : runCalls g (ks ++ [k]) w = (g k (runCalls g ks w)).2 := by
  simp [runCalls, List.foldl_append]

theorem memoInv_empty {K V : Type} (f : K → V) : MemoInv f (Memo.empty : Memo K V) := by
  intro k v h
  simp [Memo.empty] at h

theorem memoInv_set {K V : Type} [DecidableEq K] (f : K → V) (memo : Memo K V) (n : K)
    (h : MemoInv f memo) : MemoInv f (memo.set n (f n)) := by
  intro k v hk
  simp only [Memo.set] at hk
  by_cases e : k = n
  · rw [if_pos e] at hk
    rw [e]
    exact (Option.some.inj hk).symm
  · rw [if_neg e] at hk
    exact h k v hk

/-- One call of the wrapper of a total deterministic `f`, on a table that
satisfies the invariant: the value is `f n` and the invariant still holds. -/
theorem memoize_total_step {K V ε : Type} [DecidableEq K] (f : K → V) (n : K)
    (w : World K V (List K)) (h : MemoInv f w.memo) :
    (memoize (invoke (total f : K → Except ε V)) n w).1 = Except.ok (f n) ∧
      MemoInv f (memoize (invoke (total f : K → Except ε V)) n w).2.memo := by
  cases hm : w.memo n with
  | some v =>
    rw [memoize_hit _ n w v hm]
    exact ⟨by rw [h n v hm], h⟩
  | none =>
    rw [memoize_invoke_ok _ n w (f n) hm rfl]
    exact ⟨rfl, memoInv_set f w.memo n h⟩

theorem runCalls_total_inv {K V ε : Type} [DecidableEq K] (f : K → V) (ks : List K)
    (w : World K V (List K)) (h : MemoInv f w.memo) :
    MemoInv f (runCalls (memoize (invoke (total f : K → Except ε V))) ks w).memo := by
  induction ks using List.reverseRecOn with
  | nil => exact h
  | append_singleton ks k ih =>
    rw [runCalls_snoc]
    exact (memoize_total_step f k _ ih).2

theorem logInv_step {K V ε : Type} [DecidableEq K] (f : K → V) (ks : List K) (n : K)
    (w : World K V (List K)) (h : LogInv w ks) :
    LogInv (memoize (invoke (total f : K → Except ε V)) n w).2 (ks ++ [n]) := by
  obtain ⟨hm, hc⟩ := h
  cases hn : w.memo n with
  | some v =>
    have hin : n ∈ ks := (hm n).1 (by rw [hn]; simp)
    rw [memoize_hit _ n w v hn]
    refine ⟨fun k => ?_, fun k => ?_⟩
    · rw [hm k, List.mem_append, List.mem_singleton]
      constructor
      · exact Or.inl
      · rintro (h | h)
        · exact h
        · rw [h]; exact hin
    · rw [hc k]
      by_cases hk : k ∈ ks
      · rw [if_pos hk, if_pos (List.mem_append_left _ hk)]
      · have hne : k ≠ n := fun e => hk (e ▸ hin)
        rw [if_neg hk, if_neg]
        simp [hk, hne]
  | none =>
    have hnin : n ∉ ks := fun hin => (hm n).2 hin hn
    rw [memoize_invoke_ok _ n w (f n) hn rfl]
    refine ⟨fun k => ?_, fun k => ?_⟩
    · simp only [Memo.set, List.mem_append, List.mem_singleton]
      by_cases e : k = n
      · simp [e]
      · rw [if_neg e, hm k]
        simp [e]
    · simp only [List.count_append, hc k, List.mem_append, List.mem_singleton]
      by_cases e : k = n
      · subst e
        simp [hnin]
      · have e2 : n ≠ k := fun h => e h.symm
        by_cases hk : k ∈ ks
        · simp [hk, e, e2]
        · simp [hk, e, e2]

theorem logInv_runCalls {K V ε : Type} [DecidableEq K] (f : K → V) (ks : List K) :
    LogInv (runCalls (memoize (invoke (total f : K → Except ε V))) ks freshLog) ks := by
  induction ks using List.reverseRecOn with
  | nil =>
    refine ⟨fun k => ?_, fun k => ?_⟩
    · simp [runCalls, freshLog, Memo.empty]
    · simp [runCalls, freshLog]
  | append_singleton ks k ih =>
    rw [runCalls_snoc]
    exact logInv_step f ks k _ ih

/-! ## The claims on `memoize` -/

/-- C1. Functional equivalence: on every table state reached from the empty
table by earlier calls `ks` of the wrapper `g = memoize(f)` of a deterministic
`f`, the call `g(k)` returns `f(k)`. -/
theorem memoize_functional_equivalence {K V ε : Type} [DecidableEq K] (f : K → V)
    (ks : List K) (k : K) :
    (memoize (invoke (total f : K → Except ε V)) k
      (runCalls (memoize (invoke (total f : K → Except ε V))) ks freshLog)).1
      = Except.ok (f k) :=
  (memoize_total_step f k _ (runCalls_total_inv f ks freshLog (memoInv_empty f))).1

/-- C2. Single evaluation per key: after any sequence `ks` of calls of the
wrapper on a fresh table, `f` has been invoked exactly once with each key of
`ks` and with no other key; a call with a key already in the table does not
invoke `f`; and the calls `[5, 5, 5]` invoke `f` once. -/
theorem memoize_single_evaluation {K V ε : Type} [DecidableEq K] (f : K → V)
    (ks : List K) (h : Nat → V) :
    (∀ k, (runCalls (memoize (invoke (total f : K → Except ε V))) ks freshLog).ext.count k
        = if k ∈ ks then 1 else 0) ∧
    (∀ (w : World K V (List K)) (k : K) (v : V), w.memo k = some v →
        (memoize (invoke (total f : K → Except ε V)) k w).2.ext = w.ext) ∧
    (runCalls (memoize (invoke (total h : Nat → Except ε V))) [5, 5, 5] freshLog).ext = [5] := by
  refine ⟨(logInv_runCalls f ks).2, ?_, ?_⟩
  · intro w k v hk
    rw [memoize_hit _ k w v hk]
  · simp [runCalls, memoize, invoke, liftExt, total, freshLog, Memo.empty, Memo.set]

/-- Witness of C2 on the successor function: the third call of `[5, 5, 5]`
finds 5 in the table and leaves the log of invocations as it is. -/
theorem memoize_single_evaluation_witness :
    (memoize (invoke (total Nat.succ : Nat → Except Unit Nat)) 5
        (World.mk (Memo.empty.set 5 6) [5])).2.ext = [5] :=
  (memoize_single_evaluation Nat.succ [5, 5] Nat.succ).2.1
    (World.mk (Memo.empty.set 5 6) [5]) 5 6 (by simp [Memo.set])

/-- C3. The memo table invariant `table[k] == f(k)` for every present key
holds for the empty table and is preserved by every call of the wrapper. -/
theorem memoize_invariant {K V ε : Type} [DecidableEq K] (f : K → V) :
    MemoInv f (Memo.empty : Memo K V) ∧
    ∀ (w : World K V (List K)) (k : K), MemoInv f w.memo →
      MemoInv f (memoize (invoke (total f : K → Except ε V)) k w).2.memo :=
  ⟨memoInv_empty f, fun w k hw => (memoize_total_step f k w hw).2⟩

/-- Witness of C3: the invariant after the call `g(3)` on the empty table. -/
theorem memoize_invariant_witness :
    MemoInv Nat.succ
      (memoize (invoke (total Nat.succ : Nat → Except Unit Nat)) 3 freshLog).2.memo :=
  (memoize_invariant Nat.succ).2 freshLog 3 (@memoize_invariant Nat Nat Unit _ Nat.succ).1

/-- C8, as stated, fails: with `f1` constantly 1 and `f2` constantly 2 wrapped
separately, after `g1(0)` on the empty table the call `g2(0)` returns 1, the
value cached by `g1`, and not `f2(0) = 2`. -/
theorem memoize_table_is_shared_counterexample :
    ¬ ∀ (f1 f2 : Nat → Nat) (k : Nat),
      (memoize (invoke (total f2 : Nat → Except Unit Nat)) k
        (memoize (invoke (total f1 : Nat → Except Unit Nat)) k freshLog).2).1
        = Except.ok (f2 k) := by
  intro h
  have h0 := h (fun _ => 1) (fun _ => 2) 0
  simp [memoize, invoke, liftExt, total, freshLog, Memo.empty, Memo.set] at h0

/-- C8, amended. The wrappers `g1 = memoize(f1)` and `g2 = memoize(f2)` of two
functions of the same key and value types work on one table: a call `g1(k)`
leaves what `g2` returns unchanged on every key other than `k`, and after it
`g2(k)` returns the value that `g1(k)` returned. -/
theorem memoize_table_is_shared {K V ε : Type} [DecidableEq K] (f1 f2 : K → V)
    (w : World K V (List K)) (k j : K) :
    (memoize (invoke (total f2 : K → Except ε V)) j
      (memoize (invoke (total f1 : K → Except ε V)) k w).2).1
      = if j = k then (memoize (invoke (total f1 : K → Except ε V)) k w).1
        else (memoize (invoke (total f2 : K → Except ε V)) j w).1 := by
  cases hk : w.memo k with
  | some v =>
    rw [memoize_hit _ k w v hk]
    by_cases e : j = k
    · rw [if_pos e, e, memoize_hit _ k w v hk]
    · rw [if_neg e]
  | none =>
    rw [memoize_invoke_ok _ k w (f1 k) hk rfl]
    by_cases e : j = k
    · rw [if_pos e, e]
      rw [memoize_hit _ k _ (f1 k) (by simp [Memo.set])]
    · rw [if_neg e]
      cases hj : w.memo j with
      | some u =>
        rw [memoize_hit _ j w u hj, memoize_hit _ j _ u (by simp [Memo.set, e, hj])]
      | none =>
        rw [memoize_invoke_ok _ j w (f2 j) hj rfl,
          memoize_invoke_ok _ j _ (f2 j) (by simp [Memo.set, e, hj]) rfl]

/-- C9. Failure atomicity: when `f(k)` throws `e` in a call `g(k)` with `k`
not in the table, the call throws `e`, `f` has been invoked, the table is the
one from before the call, and a second call `g(k)` invokes `f` again. -/
theorem memoize_failure_atomic {K V ε : Type} [DecidableEq K] (f : K → Except ε V)
    (w : World K V (List K)) (k : K) (e : ε)
    (hk : w.memo k = none) (hf : f k = Except.error e) :
    (memoize (invoke f) k w).1 = Except.error e ∧
    (memoize (invoke f) k w).2.memo = w.memo ∧
    (memoize (invoke f) k w).2.ext = w.ext ++ [k] ∧
    (memoize (invoke f) k (memoize (invoke f) k w).2).1 = Except.error e ∧
    (memoize (invoke f) k (memoize (invoke f) k w).2).2.ext = w.ext ++ [k] ++ [k] := by
  have h1 := memoize_invoke_error f k w e hk hf
  have h2 := memoize_invoke_error f k (World.mk w.memo (w.ext ++ [k])) e hk hf
  rw [h1]
  refine ⟨rfl, rfl, rfl, ?_, ?_⟩
  · exact congrArg Prod.fst h2
  · exact congrArg (fun r => r.2.ext) h2

/-- Witness of C9: a function that throws at 0, called at 0 on a fresh table. -/
theorem memoize_failure_atomic_witness :
    (memoize (invoke (fun k : Nat => if k = 0 then Except.error () else Except.ok k)) 0
        (freshLog : World Nat Nat (List Nat))).2.memo = Memo.empty ∧
    (memoize (invoke (fun k : Nat => if k = 0 then Except.error () else Except.ok k)) 0
      (memoize (invoke (fun k : Nat => if k = 0 then Except.error () else Except.ok k)) 0
        (freshLog : World Nat Nat (List Nat))).2).2.ext = [0, 0] :=
  ⟨(memoize_failure_atomic (fun k : Nat => if k = 0 then Except.error () else Except.ok k)
      freshLog 0 () rfl rfl).2.1,
   (memoize_failure_atomic (fun k : Nat => if k = 0 then Except.error () else Except.ok k)
      freshLog 0 () rfl rfl).2.2.2.2⟩

/-! ## Helpers on the Fibonacci variants -/

theorem usub_one_lt {n : Nat} (h1 : ¬ n ≤ 1) : usub n 1 < n := by
  simp only [usub, U32] at *
  split <;> omega

theorem usub_two_lt {n : Nat} (h1 : ¬ n ≤ 1) : usub n 2 < n := by
  simp only [usub, U32] at *
  split <;> omega

theorem fibonocci_lambda_unfold (n calls : Nat) :
    fibonocci_lambda n calls =
      if n ≤ 1 then (n, calls + 1)
      else (uadd (fibonocci_lambda (usub n 1) (calls + 1)).1
              (fibonocci_lambda (usub n 2) (fibonocci_lambda (usub n 1) (calls + 1)).2).1,
            (fibonocci_lambda (usub n 2) (fibonocci_lambda (usub n 1) (calls + 1)).2).2) := by
  rw [fibonocci_lambda]

/-- The value of `fibonocci_lambda` is the value of the naive `fibonocci`. -/
theorem fibonocci_lambda_fst : ∀ n calls, (fibonocci_lambda n calls).1 = fibonocci n := by
  intro n
  induction n using Nat.strong_induction_on with
  | _ n ih =>
    intro calls
    rw [fibonocci_lambda_unfold, fibonocci_unfold]
    by_cases h1 : n ≤ 1
    · rw [if_pos h1, if_pos h1]
    · rw [if_neg h1, if_neg h1]
      simp only [ih (usub n 1) (usub_one_lt h1), ih (usub n 2) (usub_two_lt h1)]

/-- Entries into the body of `fibonocci_lambda` made by one call:
`2 * F(n + 1) - 1`. -/
theorem fibonocci_lambda_snd : ∀ n calls,
    (fibonocci_lambda n calls).2 = calls + (2 * Nat.fib (n + 1) - 1) := by
  intro n
  induction n using Nat.strong_induction_on with
  | _ n ih =>
    intro calls
    rw [fibonocci_lambda_unfold]
    by_cases h1 : n ≤ 1
    · rw [if_pos h1]
      have h2 : n = 0 ∨ n = 1 := by omega
      rcases h2 with h2 | h2 <;> subst h2 <;> simp
    · rw [if_neg h1, usub_one h1, usub_two h1]
      simp only [ih (n - 1) (by omega), ih (n - 2) (by omega)]
      obtain ⟨m, rfl⟩ : ∃ m, n = m + 2 := ⟨n - 2, by omega⟩
      have e1 : m + 2 - 1 + 1 = m + 2 := by omega
      have e2 : m + 2 - 2 + 1 = m + 1 := by omega
      have e3 : Nat.fib (m + 2 + 1) = Nat.fib (m + 1) + Nat.fib (m + 2) := Nat.fib_add_two
      have p1 : 0 < Nat.fib (m + 1) := Nat.fib_pos.mpr (by omega)
      have p2 : 0 < Nat.fib (m + 2) := Nat.fib_pos.mpr (by omega)
      rw [e1, e2, e3]
      omega

theorem memoized_hit (n : Nat) (w : World Nat Nat Nat) (v : Nat) (h : w.memo n = some v) :
    memoized n w = (Except.ok v, w) :=
  memoize_hit _ n w v h

theorem memoized_miss (n : Nat) (w : World Nat Nat Nat) (h : w.memo n = none) :
    memoized n w =
      (Except.ok (fibonocci n),
        World.mk (w.memo.set n (fibonocci n)) (fibonocci_lambda n w.ext).2) := by
  simp only [memoized, memoize, h, liftExt, fibonocci_lambda_fst]

/-- One call of `memoized` on a table that satisfies the invariant. -/
theorem memoized_step (n : Nat) (w : World Nat Nat Nat) (h : MemoInv fibonocci w.memo) :
    (memoized n w).1 = Except.ok (fibonocci n) ∧ MemoInv fibonocci (memoized n w).2.memo := by
  cases hm : w.memo n with
  | some v =>
    rw [memoized_hit n w v hm]
    exact ⟨by rw [h n v hm], h⟩
  | none =>
    rw [memoized_miss n w hm]
    exact ⟨rfl, memoInv_set fibonocci w.memo n h⟩

theorem runCalls_memoized_inv (ks : List Nat) (w : World Nat Nat Nat)
    (h : MemoInv fibonocci w.memo) : MemoInv fibonocci (runCalls memoized ks w).memo := by
  induction ks using List.reverseRecOn with
  | nil => exact h
  | append_singleton ks k ih =>
    rw [runCalls_snoc]
    exact (memoized_step k _ ih).2

theorem fibonocci_with_memoization_unfold (n : Nat) (s : HandState) :
    fibonocci_with_memoization n s =
      if n ≤ 1 then (n, HandState.mk s.memo (s.entries + 1))
      else
        match s.memo n with
        | some v => (v, HandState.mk s.memo (s.entries + 1))
        | none =>
          (uadd (fibonocci_with_memoization (usub n 1) (HandState.mk s.memo (s.entries + 1))).1
              (fibonocci_with_memoization (usub n 2)
                (fibonocci_with_memoization (usub n 1)
                  (HandState.mk s.memo (s.entries + 1))).2).1,
            HandState.mk
              ((fibonocci_with_memoization (usub n 2)
                (fibonocci_with_memoization (usub n 1)
                  (HandState.mk s.memo (s.entries + 1))).2).2.memo.set n
                (uadd (fibonocci_with_memoization (usub n 1)
                    (HandState.mk s.memo (s.entries + 1))).1
                  (fibonocci_with_memoization (usub n 2)
                    (fibonocci_with_memoization (usub n 1)
                      (HandState.mk s.memo (s.entries + 1))).2).1))
              (fibonocci_with_memoization (usub n 2)
                (fibonocci_with_memoization (usub n 1)
                  (HandState.mk s.memo (s.entries + 1))).2).2.entries) := by
  rw [fibonocci_with_memoization]

/-- One call of `fibonocci_with_memoization` on a cache that satisfies the
invariant: the value is that of `fibonocci` and the invariant still holds. -/
theorem fibonocci_with_memoization_step : ∀ n (s : HandState), MemoInv fibonocci s.memo →
    (fibonocci_with_memoization n s).1 = fibonocci n ∧
      MemoInv fibonocci (fibonocci_with_memoization n s).2.memo := by
  intro n
  induction n using Nat.strong_induction_on with
  | _ n ih =>
    intro s hs
    rw [fibonocci_with_memoization_unfold]
    by_cases h1 : n ≤ 1
    · rw [if_pos h1]
      refine ⟨?_, hs⟩
      rw [fibonocci_unfold, if_pos h1]
    · rw [if_neg h1]
      cases hm : s.memo n with
      | some v => exact ⟨hs n v hm, hs⟩
      | none =>
        have a1 := ih (usub n 1) (usub_one_lt h1) (HandState.mk s.memo (s.entries + 1)) hs
        have a2 := ih (usub n 2) (usub_two_lt h1) _ a1.2
        have e : uadd (fibonocci (usub n 1)) (fibonocci (usub n 2)) = fibonocci n := by
          rw [fibonocci_unfold n, if_neg h1]
        simp only [a1.1, a2.1, e]
        exact ⟨trivial, memoInv_set fibonocci _ n a2.2⟩

theorem runHand_snoc (ks : List Nat) (k : Nat) (s : HandState) :
    runHand (ks ++ [k]) s = (fibonocci_with_memoization k (runHand ks s)).2 := by
  simp [runHand, List.foldl_append]

theorem runHand_inv (ks : List Nat) (s : HandState) (h : MemoInv fibonocci s.memo) :
    MemoInv fibonocci (runHand ks s).memo := by
  induction ks using List.reverseRecOn with
  | nil => exact h
  | append_singleton ks k ih =>
    rw [runHand_snoc]
    exact (fibonocci_with_memoization_step k _ ih).2

/-! ## The claims on the Fibonacci variants -/

/-- C4. The three variants agree: for every index `n ≤ 47`, whatever calls
`ks1` were made to `fibonocci_with_memoization` and `ks2` to `memoized` before,
both return the value of `fibonocci(n)`. -/
theorem three_variants_agree (n : Nat) (hn : n ≤ 47) (ks1 ks2 : List Nat) :
    (fibonocci_with_memoization n (runHand ks1 freshHand)).1 = fibonocci n ∧
    (memoized n (runCalls memoized ks2 freshRun)).1 = Except.ok (fibonocci n) ∧
    fibonocci n = Nat.fib n := by
  refine ⟨?_, ?_, ?_⟩
  · exact (fibonocci_with_memoization_step n _
      (runHand_inv ks1 freshHand (memoInv_empty fibonocci))).1
  · exact (memoized_step n _ (runCalls_memoized_inv ks2 freshRun (memoInv_empty fibonocci))).1
  · rw [fibonocci_eq_fib]
    apply Nat.mod_eq_of_lt
    calc Nat.fib n ≤ Nat.fib 47 := Nat.fib_mono hn
      _ < U32 := by norm_num

/-- Witness of C4 at `n = 10`, after calls at 3 and 20 of the hand-memoized
variant and at 30 and 5 of the generic one. -/
theorem three_variants_agree_witness :
    (fibonocci_with_memoization 10 (runHand [3, 20] freshHand)).1 = fibonocci 10 ∧
    (memoized 10 (runCalls memoized [30, 5] freshRun)).1 = Except.ok (fibonocci 10) ∧
    fibonocci 10 = Nat.fib 10 :=
  three_variants_agree 10 (by decide) [3, 20] [30, 5]

/-- C5. The naive `fibonocci` implements the recurrence in arithmetic modulo
`2^32`: `fibonocci(0) = 0`, `fibonocci(1) = 1`, `fibonocci(n) = fibonocci(n-1) +
fibonocci(n-2)` for `n ≥ 2`, hence `fibonocci(n)` is the `n`-th Fibonacci
number modulo `2^32`; at 10, 20 and 30 it is 55, 6765 and 832040. -/
theorem fibonocci_recurrence (n : Nat) :
    fibonocci 0 = 0 ∧ fibonocci 1 = 1 ∧
    (2 ≤ n → fibonocci n = (fibonocci (n - 1) + fibonocci (n - 2)) % U32) ∧
    fibonocci n = Nat.fib n % U32 ∧
    fibonocci 10 = 55 ∧ fibonocci 20 = 6765 ∧ fibonocci 30 = 832040 := by
  refine ⟨?_, ?_, ?_, fibonocci_eq_fib n, ?_, ?_, ?_⟩
  · rw [fibonocci_unfold]; rfl
  · rw [fibonocci_unfold]; rfl
  · intro h2
    have h1 : ¬ n ≤ 1 := by omega
    rw [fibonocci_unfold n, if_neg h1, usub_one h1, usub_two h1, uadd]
  · rw [fibonocci_eq_fib]; norm_num
  · rw [fibonocci_eq_fib]; norm_num
  · rw [fibonocci_eq_fib]; norm_num

/-- Witness of C5 at `n = 12`. -/
theorem fibonocci_recurrence_witness :
    fibonocci 12 = (fibonocci (12 - 1) + fibonocci (12 - 2)) % U32 ∧
    fibonocci 12 = Nat.fib 12 % U32 :=
  ⟨(fibonocci_recurrence 12).2.2.1 (by decide), (fibonocci_recurrence 12).2.2.2.1⟩

/-- C6, as stated, fails: after `memoized(1)` on the empty table there is no
entry for the index 0. -/
theorem memoized_table_counterexample :
    ¬ ∀ n k, k ≤ n → (memoized n freshRun).2.memo k = some (fibonocci k) := by
  intro h
  have h0 := h 1 0 (by decide)
  rw [memoized_miss 1 freshRun rfl] at h0
  simp [Memo.set, freshRun, Memo.empty] at h0

/-- C6, amended. After `memoized(n)` on the empty table, the table has the
entry `table[n] == fibonocci(n)`, and every entry `table[k]` it has is
`fibonocci(k)`, the `k`-th Fibonacci number modulo `2^32`. -/
theorem memoized_table (n : Nat) :
    (memoized n freshRun).2.memo n = some (fibonocci n) ∧
    ∀ k v, (memoized n freshRun).2.memo k = some v →
      v = fibonocci k ∧ v = Nat.fib k % U32 := by
  refine ⟨?_, ?_⟩
  · rw [memoized_miss n freshRun rfl]
    simp [Memo.set]
  · intro k v hk
    have h := (memoized_step n freshRun (memoInv_empty fibonocci)).2 k v hk
    exact ⟨h, by rw [h, fibonocci_eq_fib]⟩

/-- Witness of C6 amended, at `n = 1`: the table has the entry of 1, and the
value stored there is the Fibonacci number of 1 modulo `2^32`. -/
theorem memoized_table_witness :
    (memoized 1 freshRun).2.memo 1 = some (fibonocci 1) ∧
    fibonocci 1 = Nat.fib 1 % U32 :=
  ⟨(memoized_table 1).1, ((memoized_table 1).2 1 (fibonocci 1) (memoized_table 1).1).2⟩

/-- C7 on the code: `memoized(3)` on the empty table enters the body of
`fibonocci_lambda` 5 times, more than the `3 + 1` distinct indices, and leaves
no entry for the index 2; `memoized(30)` enters it 2692537 times. The
recursive calls go to the unwrapped `fibonocci_lambda`. -/
theorem memoized_body_entries :
    (memoized 3 freshRun).2.ext = 5 ∧
    (memoized 3 freshRun).2.memo 2 = none ∧
    (memoized 30 freshRun).2.ext = 2692537 := by
  have e4 : Nat.fib (3 + 1) = 3 := by norm_num
  have e31 : Nat.fib (30 + 1) = 1346269 := by norm_num
  refine ⟨?_, ?_, ?_⟩
  · rw [memoized_miss 3 freshRun rfl, fibonocci_lambda_snd, e4]
    rfl
  · rw [memoized_miss 3 freshRun rfl]
    rfl
  · rw [memoized_miss 30 freshRun rfl, fibonocci_lambda_snd, e31]
    rfl

/-- C10. Idempotence of `memoized`: on any state, a second call `memoized(n)`
right after the first returns the same value and enters the body of
`fibonocci_lambda` no further time (it changes nothing in the state). -/
theorem memoized_idempotent (n : Nat) (w : World Nat Nat Nat) :
    (memoized n (memoized n w).2).1 = (memoized n w).1 ∧
    (memoized n (memoized n w).2).2.ext = (memoized n w).2.ext ∧
    (memoized n (memoized n w).2).2.memo = (memoized n w).2.memo := by
  cases hm : w.memo n with
  | some v =>
    have h := memoized_hit n w v hm
    rw [h]
    exact ⟨congrArg Prod.fst h, congrArg (fun r => r.2.ext) h, congrArg (fun r => r.2.memo) h⟩
  | none =>
    rw [memoized_miss n w hm]
    have h := memoized_hit n
      (World.mk (w.memo.set n (fibonocci n)) (fibonocci_lambda n w.ext).2) (fibonocci n)
      (by simp [Memo.set])
    exact ⟨congrArg Prod.fst h, congrArg (fun r => r.2.ext) h, congrArg (fun r => r.2.memo) h⟩

/-- C11. Overflow boundary: for every `n ≤ 47`, `fibonocci(n)` is the exact
Fibonacci number `F(n)`, with `F(47) < 2^32`; at `n = 48`, where
`F(48) ≥ 2^32`, the value is `F(48) - 2^32` and differs from `F(48)`. -/
theorem fibonocci_overflow_boundary :
    (∀ n, n ≤ 47 → fibonocci n = Nat.fib n) ∧
    Nat.fib 47 < U32 ∧ U32 ≤ Nat.fib 48 ∧
    fibonocci 48 ≠ Nat.fib 48 ∧ fibonocci 48 = Nat.fib 48 - U32 := by
  refine ⟨?_, by norm_num, by norm_num, ?_, ?_⟩
  · intro n hn
    rw [fibonocci_eq_fib]
    apply Nat.mod_eq_of_lt
    calc Nat.fib n ≤ Nat.fib 47 := Nat.fib_mono hn
      _ < U32 := by norm_num
  · rw [fibonocci_eq_fib]; norm_num
  · rw [fibonocci_eq_fib]; norm_num

/-- Witness of C11 at the last exact index, `n = 47`. -/
theorem fibonocci_overflow_boundary_witness : fibonocci 47 = Nat.fib 47 :=
  fibonocci_overflow_boundary.1 47 (by decide)

/-! ## Further claims on `memoize` -/

/-- A call of the wrapper of a callable that cannot reach the table keeps
every entry of the table and adds at most the entry of its own key. -/
theorem memoize_liftExt_frame {K V σ ε : Type} [DecidableEq K]
    (F : K → σ → Except ε V × σ) (w : World K V σ) (k : K) :
    (∀ j v, w.memo j = some v → (memoize (liftExt F) k w).2.memo j = some v) ∧
    (∀ j, j ≠ k → (memoize (liftExt F) k w).2.memo j = w.memo j) := by
  cases hk : w.memo k with
  | some u =>
    rw [memoize_hit _ k w u hk]
    exact ⟨fun j v h => h, fun j _ => rfl⟩
  | none =>
    cases hF : (F k w.ext).1 with
    | error e =>
      have h : memoize (liftExt F) k w = (Except.error e, World.mk w.memo (F k w.ext).2) := by
        simp only [memoize, hk, liftExt, hF]
      rw [h]
      exact ⟨fun j v h => h, fun j _ => rfl⟩
    | ok r =>
      have h : memoize (liftExt F) k w =
          (Except.ok r, World.mk (w.memo.set k r) (F k w.ext).2) := by
        simp only [memoize, hk, liftExt, hF]
      rw [h]
      refine ⟨fun j v hj => ?_, fun j hj => ?_⟩
      · have hne : j ≠ k := fun e => by rw [e, hk] at hj; exact Option.noConfusion hj
        simp only [Memo.set, if_neg hne, hj]
      · simp only [Memo.set, if_neg hj]

/-- A call of the wrapper that returns `v` leaves `v` in the table under its key. -/
theorem memoize_liftExt_cached {K V σ ε : Type} [DecidableEq K]
    (F : K → σ → Except ε V × σ) (w : World K V σ) (k : K) (v : V)
    (h : (memoize (liftExt F) k w).1 = Except.ok v) :
    (memoize (liftExt F) k w).2.memo k = some v := by
  cases hk : w.memo k with
  | some u =>
    rw [memoize_hit _ k w u hk] at h ⊢
    have e : u = v := Except.ok.inj h
    rw [← e]
    exact hk
  | none =>
    cases hF : (F k w.ext).1 with
    | error e =>
      have h2 : memoize (liftExt F) k w = (Except.error e, World.mk w.memo (F k w.ext).2) := by
        simp only [memoize, hk, liftExt, hF]
      rw [h2] at h
      exact Except.noConfusion h
    | ok r =>
      have h2 : memoize (liftExt F) k w =
          (Except.ok r, World.mk (w.memo.set k r) (F k w.ext).2) := by
        simp only [memoize, hk, liftExt, hF]
      rw [h2] at h ⊢
      have e : r = v := Except.ok.inj h
      simp only [Memo.set, if_pos, e]

theorem runCalls_liftExt_keeps {K V σ ε : Type} [DecidableEq K]
    (F : K → σ → Except ε V × σ) (ks : List K) (w : World K V σ) (k : K) (v : V)
    (h : w.memo k = some v) : (runCalls (memoize (liftExt F)) ks w).memo k = some v := by
  induction ks using List.reverseRecOn with
  | nil => exact h
  | append_singleton ks j ih =>
    rw [runCalls_snoc]
    exact (memoize_liftExt_frame F _ j).1 k v ih

/-- C12. First observed value wins: let `F` depend on the key and on an
external state.  Once `g(k)` has returned `v`, then after any further calls
`ks` of `g`, and whatever the external state `e` has become, `g(k)` returns
`v` and changes nothing: `F` is not invoked. -/
theorem memoize_first_value_wins {K V σ ε : Type} [DecidableEq K]
    (F : K → σ → Except ε V × σ) (w : World K V σ) (k : K) (v : V)
    (h : (memoize (liftExt F) k w).1 = Except.ok v) (ks : List K) (e : σ) :
    memoize (liftExt F) k
        (World.mk (runCalls (memoize (liftExt F)) ks (memoize (liftExt F) k w).2).memo e)
      = (Except.ok v,
          World.mk (runCalls (memoize (liftExt F)) ks (memoize (liftExt F) k w).2).memo e) :=
  memoize_hit _ k _ v
    (runCalls_liftExt_keeps F ks _ k v (memoize_liftExt_cached F w k v h))

/-- Witness of C12: `F(k)` returns `k` plus the external state, a counter it
increments.  `g(5)` first returns 5; after the calls `g(7)`, `g(5)` and with
the counter at 100, where `F(5)` would be 105, `g(5)` is still 5 and the
counter stays at 100. -/
theorem memoize_first_value_wins_witness :
    memoize (liftExt (fun k s => ((Except.ok (k + s) : Except Unit Nat), s + 1))) 5
        (World.mk (runCalls (memoize (liftExt (fun k s =>
            ((Except.ok (k + s) : Except Unit Nat), s + 1)))) [7, 5]
          (memoize (liftExt (fun k s => ((Except.ok (k + s) : Except Unit Nat), s + 1))) 5
            (World.mk Memo.empty 0)).2).memo 100)
      = (Except.ok 5,
          World.mk (runCalls (memoize (liftExt (fun k s =>
              ((Except.ok (k + s) : Except Unit Nat), s + 1)))) [7, 5]
            (memoize (liftExt (fun k s => ((Except.ok (k + s) : Except Unit Nat), s + 1))) 5
              (World.mk Memo.empty 0)).2).memo 100) :=
  memoize_first_value_wins (fun k s => ((Except.ok (k + s) : Except Unit Nat), s + 1))
    (World.mk Memo.empty 0) 5 5 rfl [7, 5] 100

/-- C13. The table never shrinks and a call touches only its own key: for a
wrapped callable that does not call back into the wrapper, after `g(k)` every
key present before is present with the same value, and every key other than
`k` is mapped as before. -/
theorem memoize_table_grows_at_own_key {K V σ ε : Type} [DecidableEq K]
    (F : K → σ → Except ε V × σ) (w : World K V σ) (k : K) :
    (∀ j v, w.memo j = some v → (memoize (liftExt F) k w).2.memo j = some v) ∧
    (∀ j, j ≠ k → (memoize (liftExt F) k w).2.memo j = w.memo j) :=
  memoize_liftExt_frame F w k

/-- Witness of C13: with 1 cached as 10, the call `g(2)` keeps that entry and
leaves the key 3 absent. -/
theorem memoize_table_grows_at_own_key_witness :
    (memoize (liftExt (fun k s => ((Except.ok (k + s) : Except Unit Nat), s + 1))) 2
        (World.mk (Memo.empty.set 1 10) 0)).2.memo 1 = some 10 ∧
    (memoize (liftExt (fun k s => ((Except.ok (k + s) : Except Unit Nat), s + 1))) 2
        (World.mk (Memo.empty.set 1 10) 0)).2.memo 3 = (Memo.empty.set 1 10 : Memo Nat Nat) 3 :=
  ⟨(memoize_table_grows_at_own_key
      (fun k s => ((Except.ok (k + s) : Except Unit Nat), s + 1))
      (World.mk (Memo.empty.set 1 10) 0) 2).1 1 10 rfl,
   (memoize_table_grows_at_own_key
      (fun k s => ((Except.ok (k + s) : Except Unit Nat), s + 1))
      (World.mk (Memo.empty.set 1 10) 0) 2).2 3 (by decide)⟩

/-! ## Helpers on the counters -/

theorem fibonocci_counted_unfold (n calls : Nat) :
    fibonocci_counted n calls =
      if n ≤ 1 then (n, calls + 1)
      else (uadd (fibonocci_counted (usub n 1) (calls + 1)).1
              (fibonocci_counted (usub n 2) (fibonocci_counted (usub n 1) (calls + 1)).2).1,
            (fibonocci_counted (usub n 2) (fibonocci_counted (usub n 1) (calls + 1)).2).2) := by
  rw [fibonocci_counted]

/-- The counter does not change the value: `fibonocci_counted` is `fibonocci`. -/
theorem fibonocci_counted_fst : ∀ n calls, (fibonocci_counted n calls).1 = fibonocci n := by
  intro n
  induction n using Nat.strong_induction_on with
  | _ n ih =>
    intro calls
    rw [fibonocci_counted_unfold, fibonocci_unfold]
    by_cases h1 : n ≤ 1
    · rw [if_pos h1, if_pos h1]
    · rw [if_neg h1, if_neg h1]
      simp only [ih (usub n 1) (usub_one_lt h1), ih (usub n 2) (usub_two_lt h1)]

theorem fibonocci_counted_snd : ∀ n calls,
    (fibonocci_counted n calls).2 = calls + (2 * Nat.fib (n + 1) - 1) := by
  intro n
  induction n using Nat.strong_induction_on with
  | _ n ih =>
    intro calls
    rw [fibonocci_counted_unfold]
    by_cases h1 : n ≤ 1
    · rw [if_pos h1]
      have h2 : n = 0 ∨ n = 1 := by omega
      rcases h2 with h2 | h2 <;> subst h2 <;> simp
    · rw [if_neg h1, usub_one h1, usub_two h1]
      simp only [ih (n - 1) (by omega), ih (n - 2) (by omega)]
      obtain ⟨m, rfl⟩ : ∃ m, n = m + 2 := ⟨n - 2, by omega⟩
      have e1 : m + 2 - 1 + 1 = m + 2 := by omega
      have e2 : m + 2 - 2 + 1 = m + 1 := by omega
      have e3 : Nat.fib (m + 2 + 1) = Nat.fib (m + 1) + Nat.fib (m + 2) := Nat.fib_add_two
      have p1 : 0 < Nat.fib (m + 1) := Nat.fib_pos.mpr (by omega)
      have p2 : 0 < Nat.fib (m + 2) := Nat.fib_pos.mpr (by omega)
      rw [e1, e2, e3]
      omega

theorem handKeys_set (s : HandState) (n v e : Nat) (h2 : 2 ≤ n) (h : HandKeys s (n - 1)) :
    HandKeys (HandState.mk (s.memo.set n v) e) n := by
  intro k
  simp only [Memo.set]
  by_cases hk : k = n
  · rw [if_pos hk]
    constructor
    · intro _; omega
    · intro _; exact Option.some_ne_none v
  · rw [if_neg hk, h k]
    constructor
    · intro ⟨a, b⟩; omega
    · intro ⟨a, b⟩; omega

/-- Entries made by one call of `fibonocci_with_memoization(n)` on a cache
holding exactly the keys `2 .. m`: one if `n ≤ m`, else `2 * (n - m) + 1`; the
cache then holds the keys `2 .. max n m`. -/
theorem fibonocci_with_memoization_entries : ∀ n (s : HandState) (m : Nat), 1 ≤ m →
    HandKeys s m →
    (fibonocci_with_memoization n s).2.entries
        = s.entries + (if n ≤ m then 1 else 2 * (n - m) + 1) ∧
      HandKeys (fibonocci_with_memoization n s).2 (max n m) := by
  intro n
  induction n using Nat.strong_induction_on with
  | _ n ih =>
    intro s m hm hs
    rw [fibonocci_with_memoization_unfold]
    by_cases h1 : n ≤ 1
    · rw [if_pos h1, if_pos (by omega), Nat.max_eq_right (by omega)]
      exact ⟨rfl, hs⟩
    · rw [if_neg h1]
      cases hn : s.memo n with
      | some v =>
        have hle : n ≤ m := ((hs n).1 (by rw [hn]; exact Option.some_ne_none v)).2
        rw [if_pos hle, Nat.max_eq_right hle]
        exact ⟨rfl, hs⟩
      | none =>
        have hlt : m < n := by
          by_contra hc
          exact (hs n).2 ⟨by omega, by omega⟩ hn
        simp only [usub_one h1, usub_two h1]
        have a1 := ih (n - 1) (by omega) (HandState.mk s.memo (s.entries + 1)) m hm hs
        have k1 : HandKeys (fibonocci_with_memoization (n - 1)
            (HandState.mk s.memo (s.entries + 1))).2 (n - 1) := by
          have h := a1.2
          rwa [Nat.max_eq_left (show m ≤ n - 1 by omega)] at h
        have a2 := ih (n - 2) (by omega) _ (n - 1) (by omega) k1
        have k2 : HandKeys (fibonocci_with_memoization (n - 2)
            (fibonocci_with_memoization (n - 1)
              (HandState.mk s.memo (s.entries + 1))).2).2 (n - 1) := by
          have h := a2.2
          rwa [Nat.max_eq_right (show n - 2 ≤ n - 1 by omega)] at h
        refine ⟨?_, ?_⟩
        · show (fibonocci_with_memoization (n - 2)
            (fibonocci_with_memoization (n - 1)
              (HandState.mk s.memo (s.entries + 1))).2).2.entries = _
          rw [a2.1, a1.1, if_pos (show n - 2 ≤ n - 1 by omega), if_neg (show ¬ n ≤ m by omega)]
          show s.entries + 1 + (if n - 1 ≤ m then 1 else 2 * (n - 1 - m) + 1) + 1
            = s.entries + (2 * (n - m) + 1)
          split <;> omega
        · rw [Nat.max_eq_left (show m ≤ n by omega)]
          exact handKeys_set _ n _ _ (by omega) k2

theorem handKeys_fresh : HandKeys freshHand 1 := by
  intro k
  simp only [freshHand, Memo.empty]
  constructor
  · intro h; exact absurd rfl h
  · intro ⟨a, b⟩; omega

/-! ## Helpers on the driver -/

theorem hand_fresh_value (u : Nat) :
    (fibonocci_with_memoization u freshHand).1 = fibonocci u :=
  (fibonocci_with_memoization_step u freshHand (memoInv_empty fibonocci)).1

theorem memoized_fresh_value (u : Nat) : returned (memoized u freshRun).1 = fibonocci u := by
  rw [memoized_miss u freshRun rfl]
  rfl

theorem main_operandFirst (n : Int) (ms1 ms2 ms3 : Nat) :
    main EvalOrder.operandFirst n ms1 ms2 ms3 =
      sixLines n (fibonocci (toUnsigned n)) ms1 (fibonocci (toUnsigned n)) ms2
        (fibonocci (toUnsigned n)) ms3 := by
  simp only [main, timedStatement, measure.execution, sixLines, hand_fresh_value,
    memoized_fresh_value, List.nil_append, List.cons_append, List.append_assoc]

theorem main_leftToRight (n : Int) (ms1 ms2 ms3 : Nat) :
    main EvalOrder.leftToRight n ms1 ms2 ms3 =
      [Tok.text "Duration: ", Tok.text "fibonocci(", Tok.int n, Tok.text ") -> ",
        Tok.uns (fibonocci (toUnsigned n)), Tok.endl, Tok.dur ms1, Tok.endl,
       Tok.text "Duration: ", Tok.text "fibonocci_with_memoization(", Tok.int n,
        Tok.text ") -> ", Tok.uns (fibonocci (toUnsigned n)), Tok.endl, Tok.dur ms2, Tok.endl,
       Tok.text "Duration: ", Tok.text "memoized(", Tok.int n, Tok.text ") -> ",
        Tok.uns (fibonocci (toUnsigned n)), Tok.endl, Tok.dur ms3, Tok.endl] := by
  simp only [main, timedStatement, measure.execution, hand_fresh_value,
    memoized_fresh_value, List.nil_append, List.cons_append, List.append_assoc]

theorem fibonocci_fun : fibonocci = fun k => Nat.fib k % U32 :=
  funext fibonocci_eq_fib

/-! ## The remaining claims -/

/-- C14 on the code. For the argument 10 and left-to-right evaluation of the
`<<` chains, `main` writes the text `Duration: ` before each timed action
runs: the output is `Duration: fibonocci(10) -> 55`, `0`, and so on, the
label apart from its number, and not the six lines listed, whatever the three
values.  The statements `std::cout << "Duration: " << measure<>::execution(...)`
print the six lines listed only when the call is evaluated before the
insertion of the label. -/
theorem main_output_left_to_right :
    main EvalOrder.leftToRight 10 0 0 0 =
      [Tok.text "Duration: ", Tok.text "fibonocci(", Tok.int 10, Tok.text ") -> ",
        Tok.uns 55, Tok.endl, Tok.dur 0, Tok.endl,
       Tok.text "Duration: ", Tok.text "fibonocci_with_memoization(", Tok.int 10,
        Tok.text ") -> ", Tok.uns 55, Tok.endl, Tok.dur 0, Tok.endl,
       Tok.text "Duration: ", Tok.text "memoized(", Tok.int 10, Tok.text ") -> ",
        Tok.uns 55, Tok.endl, Tok.dur 0, Tok.endl] ∧
    (¬ ∃ v1 v2 v3, main EvalOrder.leftToRight 10 0 0 0 = sixLines 10 v1 0 v2 0 v3 0) ∧
    main EvalOrder.operandFirst 10 0 0 0 = sixLines 10 55 0 55 0 55 0 := by
  have e10 : toUnsigned 10 = 10 := by decide
  have e : fibonocci (toUnsigned 10) = 55 := by
    rw [e10, fibonocci_eq_fib]
    norm_num
  refine ⟨?_, ?_, ?_⟩
  · rw [main_leftToRight, e]
  · rintro ⟨v1, v2, v3, h⟩
    rw [main_leftToRight] at h
    simp [sixLines] at h
  · rw [main_operandFirst, e]

/-- C15. Cache invariant of the hand-memoized variant: `memo[k] == fib(k)
mod 2^32` for every stored key holds for the empty cache and is preserved by
every call; hence after any earlier calls `ks`, `fibonocci_with_memoization(n)`
returns `fib(n) mod 2^32`, which is `fibonocci(n)`. -/
theorem hand_memo_invariant :
    MemoInv (fun k => Nat.fib k % U32) freshHand.memo ∧
    (∀ (n : Nat) (s : HandState), MemoInv (fun k => Nat.fib k % U32) s.memo →
      MemoInv (fun k => Nat.fib k % U32) (fibonocci_with_memoization n s).2.memo) ∧
    (∀ (ks : List Nat) (n : Nat),
      (fibonocci_with_memoization n (runHand ks freshHand)).1 = Nat.fib n % U32 ∧
      (fibonocci_with_memoization n (runHand ks freshHand)).1 = fibonocci n) := by
  rw [← fibonocci_fun]
  refine ⟨memoInv_empty fibonocci, ?_, ?_⟩
  · intro n s hs
    exact (fibonocci_with_memoization_step n s hs).2
  · intro ks n
    have h := (fibonocci_with_memoization_step n _
      (runHand_inv ks freshHand (memoInv_empty fibonocci))).1
    exact ⟨by rw [h, fibonocci_eq_fib], h⟩

/-- Witness of C15: the invariant after the call at 5 on the empty cache. -/
theorem hand_memo_invariant_witness :
    MemoInv (fun k => Nat.fib k % U32) (fibonocci_with_memoization 5 freshHand).2.memo :=
  hand_memo_invariant.2.1 5 freshHand hand_memo_invariant.1

/-- C16. Linear work of the hand-memoized variant: on the empty cache,
`fibonocci_with_memoization(n)` enters the function once for `n = 0` and
`2n - 1` times for `n ≥ 1`; a second evaluation with the same `n ≥ 2` enters
it once. -/
theorem hand_memo_linear_work (n : Nat) :
    (n = 0 → (fibonocci_with_memoization n freshHand).2.entries = 1) ∧
    (1 ≤ n → (fibonocci_with_memoization n freshHand).2.entries = 2 * n - 1) ∧
    (2 ≤ n → (fibonocci_with_memoization n
        (fibonocci_with_memoization n freshHand).2).2.entries
      = (fibonocci_with_memoization n freshHand).2.entries + 1) := by
  have h := fibonocci_with_memoization_entries n freshHand 1 (Nat.le_refl 1) handKeys_fresh
  have h0 : freshHand.entries = 0 := rfl
  refine ⟨fun hn => ?_, fun hn => ?_, fun hn => ?_⟩
  · rw [h.1, h0, if_pos (by omega)]
  · rw [h.1, h0]
    split <;> omega
  · have h2 := fibonocci_with_memoization_entries n _ (max n 1) (by omega) h.2
    rw [h2.1, if_pos (Nat.le_max_left n 1)]

/-- Witness of C16 at `n = 5`: nine entries. -/
theorem hand_memo_linear_work_witness :
    (fibonocci_with_memoization 5 freshHand).2.entries = 2 * 5 - 1 :=
  (hand_memo_linear_work 5).2.1 (by decide)

/-- C17. Exponential work of the naive variant: the evaluation of
`fibonocci(n)` enters the function `2 * F(n + 1) - 1` times: once for
`n ≤ 1`, and for `n ≥ 2` once plus the entries of the two recursive calls. -/
theorem naive_exponential_work (n : Nat) :
    (fibonocci_counted n 0).2 = 2 * Nat.fib (n + 1) - 1 ∧
    (fibonocci_counted n 0).1 = fibonocci n ∧
    (n ≤ 1 → ∀ c, (fibonocci_counted n c).2 = c + 1) ∧
    (2 ≤ n → ∀ c, (fibonocci_counted n c).2 =
      (fibonocci_counted (n - 2) (fibonocci_counted (n - 1) (c + 1)).2).2) := by
  refine ⟨?_, fibonocci_counted_fst n 0, ?_, ?_⟩
  · rw [fibonocci_counted_snd, Nat.zero_add]
  · intro h c
    rw [fibonocci_counted_unfold, if_pos h]
  · intro h c
    have h1 : ¬ n ≤ 1 := by omega
    rw [fibonocci_counted_unfold n, if_neg h1, usub_one h1, usub_two h1]

/-- Witness of C17 at `n = 1`: a single entry. -/
theorem naive_exponential_work_witness : (fibonocci_counted 1 7).2 = 7 + 1 :=
  (naive_exponential_work 1).2.2.1 (by decide) 7

/-- C18. Termination without unsigned underflow: the three functions are
total, and for a 32-bit `n` they recurse only when `n ≥ 2`, on the arguments
`n - 1` and `n - 2`, which do not wrap and are smaller than `n`; for `n ≤ 1`
they return `n` without a recursive call. -/
theorem recursion_without_underflow (n : Nat) (hn : n < U32) :
    (n ≤ 1 → fibonocci n = n ∧ (∀ c, fibonocci_lambda n c = (n, c + 1)) ∧
      (∀ s, fibonocci_with_memoization n s = (n, HandState.mk s.memo (s.entries + 1)))) ∧
    (¬ n ≤ 1 → 2 ≤ n ∧ usub n 1 = n - 1 ∧ usub n 2 = n - 2 ∧
      usub n 1 < n ∧ usub n 2 < n ∧ usub n 1 < U32 ∧ usub n 2 < U32 ∧
      fibonocci n = uadd (fibonocci (n - 1)) (fibonocci (n - 2)) ∧
      (∀ c, (fibonocci_lambda n c).1 =
        uadd (fibonocci_lambda (n - 1) (c + 1)).1
          (fibonocci_lambda (n - 2) (fibonocci_lambda (n - 1) (c + 1)).2).1) ∧
      (∀ s, s.memo n = none → (fibonocci_with_memoization n s).1 =
        uadd (fibonocci_with_memoization (n - 1) (HandState.mk s.memo (s.entries + 1))).1
          (fibonocci_with_memoization (n - 2)
            (fibonocci_with_memoization (n - 1)
              (HandState.mk s.memo (s.entries + 1))).2).1)) := by
  refine ⟨fun h => ⟨?_, fun c => ?_, fun s => ?_⟩, fun h => ?_⟩
  · rw [fibonocci_unfold, if_pos h]
  · rw [fibonocci_lambda_unfold, if_pos h]
  · rw [fibonocci_with_memoization_unfold, if_pos h]
  · have e1 := usub_one h
    have e2 := usub_two h
    refine ⟨by omega, e1, e2, usub_one_lt h, usub_two_lt h, by omega, by omega, ?_,
      fun c => ?_, fun s hs => ?_⟩
    · rw [fibonocci_unfold n, if_neg h, e1, e2]
    · rw [fibonocci_lambda_unfold n, if_neg h, e1, e2]
    · rw [fibonocci_with_memoization_unfold n, if_neg h, e1, e2]
      simp only [hs]

/-- Witness of C18 at the largest 32-bit value. -/
theorem recursion_without_underflow_witness :
    usub 4294967295 1 = 4294967295 - 1 ∧ usub 4294967295 1 < 4294967295 :=
  ⟨((recursion_without_underflow 4294967295 (by decide)).2 (by decide)).2.1,
   ((recursion_without_underflow 4294967295 (by decide)).2 (by decide)).2.2.2.1⟩

end Memoization
